import Mathlib

/-!
Shallow embedding of the PKP.ai conversation-context and document-extraction
pipeline (src/components/ChatView.tsx, src/App.tsx, services/geminiService.ts),
together with theorems settling the frozen claims about it.

Strings are modelled as `List Char` (JS strings are sequences of UTF-16 code
units; all inputs considered here are plain BMP text, for which the two views
agree position by position).  Case-insensitive regex matching (`/i` flag) is
modelled by ASCII case folding, which is exact for the ASCII-only patterns the
source uses.
-/

/-- ASCII upper-casing of a character, used to model the `/i` regex flag:
a subject character matches a (lower-case or symbol) pattern character `p`
iff it equals `p` or the ASCII upper-case of `p`. -/
def ucase (c : Char) : Char :=
  if 'a' ≤ c ∧ c ≤ 'z' then Char.ofNat (c.toNat - 32) else c

/-- Case-insensitive single-character match against pattern character `p`. -/
def ciCharEq (p c : Char) : Bool := c == p || c == ucase p

/-- Case-insensitive "subject starts with pattern" (pattern written in the
source's spelling, lower-case). -/
def ciStartsWith : List Char → List Char → Bool
  | [], _ => true
  | _ :: _, [] => false
  | p :: ps, c :: cs => ciCharEq p c && ciStartsWith ps cs

/-- Case-sensitive "subject starts with pattern". -/
def beginsWith : List Char → List Char → Bool
  | [], _ => true
  | _ :: _, [] => false
  | p :: ps, c :: cs => p == c && beginsWith ps cs

/-- The JavaScript `\s` character class (WhiteSpace ∪ LineTerminator),
also the set removed by `String.prototype.trim`. -/
def isJsSpace (c : Char) : Bool :=
  c == ' ' || c == '\t' || c == '\n' || c == '\r' ||
  c.val == 11 || c.val == 12 || c.val == 0xa0 || c.val == 0x1680 ||
  (0x2000 ≤ c.val && c.val ≤ 0x200a) || c.val == 0x2028 || c.val == 0x2029 ||
  c.val == 0x202f || c.val == 0x205f || c.val == 0x3000 || c.val == 0xfeff

/-- The backtick character (code 96), head of a markdown fence. -/
def tickChar : Char := Char.ofNat 96

/-- Index of the first suffix of `l` satisfying `p` (the `match.index` of a
JS regex search whose per-position test is `p`; the patterns used here never
match the empty string, so the empty suffix is not tested). -/
def findSufIdx (p : List Char → Bool) : List Char → Option Nat
  | [] => none
  | c :: rest =>
    if p (c :: rest) then some 0 else (findSufIdx p rest).map (· + 1)

/-- Index of the last suffix of `l` satisfying `p` (JS `lastIndexOf`-style). -/
def lastSufIdx (p : List Char → Bool) : List Char → Option Nat
  | [] => none
  | c :: rest =>
    match lastSufIdx p rest with
    | some j => some (j + 1)
    | none => if p (c :: rest) then some 0 else none

/-- Per-position test of the regex `/<!doctype\s+html>/i`:
literal `<!doctype`, at least one `\s`, then literal `html>`. -/
def isDoctypeAt (l : List Char) : Bool :=
  ciStartsWith "<!doctype".data l &&
  (!((l.drop 9).takeWhile isJsSpace).isEmpty &&
   ciStartsWith "html>".data
     ((l.drop 9).drop ((l.drop 9).takeWhile isJsSpace).length))

/-- Per-position test of the start regex `/<!doctype\s+html>|<html/i` of
`cleanHtmlContent` (only the match index is used by the source). -/
def existsStartAt (l : List Char) : Bool :=
  ciStartsWith "<html".data l || isDoctypeAt l

/-- Per-position test of `/```(html)?\s*$/i`: a match at this position runs
to the end of the buffer, so the suffix must be three backticks, an optional
`html`, then only `\s` characters. -/
def fenceMatchAt (l : List Char) : Bool :=
  ciStartsWith "```".data l &&
  (let r := l.drop 3
   r.all isJsSpace || (ciStartsWith "html".data r && (r.drop 4).all isJsSpace))

/-- `html.replace(/```(html)?\s*$/i, '')`: drop the (leftmost) trailing
fence marker, if any. -/
def stripTrailingFence (l : List Char) : List Char :=
  match findSufIdx fenceMatchAt l with
  | some p => l.take p
  | none => l

/-- Remove a maximal all-`\s` suffix. -/
def dropTrail (l : List Char) : List Char :=
  (l.reverse.dropWhile isJsSpace).reverse

/-- JS `String.prototype.trim`. -/
def trimJs (l : List Char) : List Char :=
  dropTrail (l.dropWhile isJsSpace)

/-- `cleanHtmlContent` of src/components/ChatView.tsx on `List Char`:
find the document start (`/<!doctype\s+html>|<html/i`), cut the buffer there,
cut again just after the first `</html>` if one exists (7 characters past its
start), otherwise strip a trailing markdown fence, and trim. -/
def cleanHtmlList (cs : List Char) : List Char :=
  match findSufIdx existsStartAt cs with
  | none => []
  | some i =>
    let html := cs.drop i
    match findSufIdx (ciStartsWith "</html>".data) html with
    | some j => trimJs (html.take (j + 7))
    | none => trimJs (stripTrailingFence html)

/-- String-level wrapper for `cleanHtmlList` (the source's `cleanHtmlContent`;
`if (!content) return ""` is subsumed: the empty buffer has no match). -/
def cleanHtmlContent (s : String) : String :=
  String.mk (cleanHtmlList s.data)

/-- The spec's `trim(D)` on strings. -/
def trimJsStr (s : String) : String :=
  String.mk (trimJs s.data)

/-- Character class `[a-zA-Z0-9+.-]` of the base64 redaction regex. -/
def isB64MimeChar (c : Char) : Bool :=
  c.isAlpha || c.isDigit || c == '+' || c == '.' || c == '-'

/-- Character class `[^"'\s)]` of the base64 redaction regex
(34 = double quote, 39 = apostrophe, 41 = closing parenthesis). -/
def isB64DataChar (c : Char) : Bool :=
  !(c.val == 34 || c.val == 39 || c.val == 41 || isJsSpace c)

/-- Length of a match of `/data:image\/[a-zA-Z0-9+.-]+;base64,[^"'\s)]+/`
at the head of `l`, if any (the pattern is case-sensitive; both quantifier
runs are maximal, which agrees with regex backtracking because the literal
following each run cannot start a run character). -/
def matchB64At (l : List Char) : Option Nat :=
  if beginsWith "data:image/".data l then
    let r1 := l.drop 11
    let run1 := r1.takeWhile isB64MimeChar
    if run1.isEmpty then none
    else if beginsWith ";base64,".data (r1.drop run1.length) then
      let run2 := (r1.drop (run1.length + 8)).takeWhile isB64DataChar
      if run2.isEmpty then none
      else some (11 + run1.length + 8 + run2.length)
    else none
  else none

/-- Replacement text of the base64 redaction. -/
def b64Removed : String := "[Base64 Image Data Removed]"

/-- Fuelled global-replace loop for the base64 redaction (`fuel` is consumed
one character or one match at a time; `replaceB64` supplies `l.length`,
which always suffices since every match is non-empty). -/
def replaceB64Go : Nat → List Char → List Char
  | 0, l => l
  | _ + 1, [] => []
  | fuel + 1, c :: rest =>
    match matchB64At (c :: rest) with
    | some n => b64Removed.data ++ replaceB64Go fuel ((c :: rest).drop n)
    | none => c :: replaceB64Go fuel rest

/-- `content.replace(/data:image\/...;base64,.../g, "[Base64 Image Data Removed]")`. -/
def replaceB64 (l : List Char) : List Char :=
  replaceB64Go l.length l

/-- The placeholder spliced in by the sanitizer, with its surrounding blank
lines as written in the source. -/
def omitted : String := "\n\n[Presentation HTML Code Omitted to Save Context]\n\n"

/-- `sanitizeHistoryContent` of src/components/ChatView.tsx on `List Char`:
redact inline base64 image data unconditionally; then, unless this message's
HTML is being preserved, find a document start and replace everything from it
up to just after the *last* `</html>` occurrence (`toLowerCase().lastIndexOf`,
modelled as the last case-insensitive occurrence; `lastIndexOf` returns -1
when absent, so `afterIndex` is `-1 + 7 = 6` in that case) with the
placeholder, provided that end lies beyond the start. -/
def sanitizeList (cs : List Char) (preserveFullHtml : Bool) : List Char :=
  let clean := replaceB64 cs
  if preserveFullHtml then clean
  else
    match findSufIdx existsStartAt clean with
    | none => clean
    | some i =>
      let afterIndex :=
        match lastSufIdx (ciStartsWith "</html>".data) clean with
        | some k => k + 7
        | none => 6
      if i < afterIndex then
        clean.take i ++ omitted.data ++ clean.drop afterIndex
      else clean

/-- String-level wrapper (the source's `sanitizeHistoryContent`). -/
def sanitizeHistoryContent (s : String) (preserveFullHtml : Bool) : String :=
  String.mk (sanitizeList s.data preserveFullHtml)

/-- Message role (src/types.ts). -/
inductive Role where
  | user
  | assistant
deriving DecidableEq, Repr

/-- Message type (src/types.ts). -/
inductive MsgType where
  | text
  | image
  | loading
  | error
deriving DecidableEq, Repr

/-- Message status (src/types.ts). -/
inductive MsgStatus where
  | inProgress
  | complete
deriving DecidableEq, Repr

/-- Message mode (src/types.ts). -/
inductive MsgMode where
  | text
  | image
  | presentation
deriving DecidableEq, Repr

/-- A grounding source `{uri, title}` (src/types.ts `Source`). -/
structure SourceT where
  uri : String
  title : String
deriving DecidableEq, Repr

/-- An image attachment (src/types.ts `Message.attachment`). -/
structure Attachment where
  data : String
  mimeType : String
deriving DecidableEq, Repr

/-- A chat message (src/types.ts `Message`). -/
structure Message where
  id : String
  role : Role
  content : String
  type : MsgType
  sources : Option (List SourceT) := none
  timestamp : String := ""
  status : Option MsgStatus := none
  mode : Option MsgMode := none
  attachment : Option Attachment := none
deriving DecidableEq, Repr

/-- A chat session (src/types.ts `ChatSession`); `createdAt` is modelled as
the numeric timestamp `new Date(createdAt).getTime()` that the source
compares. -/
structure Session where
  id : String
  title : String
  messages : List Message
  createdAt : Nat
deriving DecidableEq, Repr

/-- A part of a per-request context unit (ChatView.tsx `Part`; `Part` itself is taken by Mathlib). -/
inductive PartU where
  | text (t : String)
  | inlineData (mimeType : String) (data : String)
deriving DecidableEq, Repr

/-- Role of a context unit (ChatView.tsx `Content`). -/
inductive CRole where
  | user
  | model
deriving DecidableEq, Repr

/-- A per-request context unit (ChatView.tsx `Content`). -/
structure ContentU where
  role : CRole
  parts : List PartU
deriving DecidableEq, Repr

/-- A stream fragment `{text?, sources?}` as passed to `streamToSession`
(an absent field is `none`; note a present-but-empty `sources` array is
truthy in JS and is therefore `some []` here). -/
structure Chunk where
  text : Option String := none
  sources : Option (List SourceT) := none
deriving DecidableEq, Repr

/-- Placeholder for an elided image attachment (ChatView.tsx). -/
def attRemoved : String := "[Image attachment removed to save context]"

/-- The parts built for one history message in `handleSendMessage`
(ChatView.tsx lines 236-252): the attachment part is inline binary data when
`messagesToProcess.length - index < 3` and a text placeholder otherwise; the
content part is the sanitized content, preserved in full iff this message is
the latest presentation. -/
def mkParts (total idx : Nat) (pid : Option String) (m : Message) : List PartU :=
  (match m.attachment with
   | some att =>
     if total - idx < 3 then [PartU.inlineData att.mimeType att.data]
     else [PartU.text attRemoved]
   | none => []) ++
  (if m.content ≠ "" then
     [PartU.text (sanitizeHistoryContent m.content (pid = some m.id))]
   else [])

/-- One context unit for one history message (ChatView.tsx lines 235-257). -/
def mkContent (total idx : Nat) (pid : Option String) (m : Message) : ContentU :=
  { role := if m.role = Role.user then CRole.user else CRole.model,
    parts := mkParts total idx pid m }

/-- Worker for `mkHistory`: map with index, then drop units with empty
`parts` (the source's `.filter(h => h.parts.length > 0)`). -/
def mkHistoryGo (total : Nat) (pid : Option String) : Nat → List Message → List ContentU
  | _, [] => []
  | idx, m :: rest =>
    let c := mkContent total idx pid m
    if c.parts = [] then mkHistoryGo total pid (idx + 1) rest
    else c :: mkHistoryGo total pid (idx + 1) rest

/-- The `history` array built from the (windowed) message list. -/
def mkHistory (msgs : List Message) (pid : Option String) : List ContentU :=
  mkHistoryGo msgs.length pid 0 msgs

/-- Test used by the last-presentation scan (ChatView.tsx line 223):
assistant message whose extracted document exceeds 20 characters. -/
def isPresMsg (m : Message) : Bool :=
  m.role == Role.assistant && decide (20 < (cleanHtmlContent m.content).length)

/-- `lastPresentationId` scan (ChatView.tsx lines 220-227): walk the full
message list from the end and take the first presentation message's id. -/
def lastPresentationId (msgs : List Message) : Option String :=
  (msgs.reverse.find? isPresMsg).map Message.id

/-- Recency window (ChatView.tsx lines 229-233): keep the last 15 messages
when there are more than 15. -/
def windowMessages (msgs : List Message) : List Message :=
  if msgs.length > 15 then msgs.drop (msgs.length - 15) else msgs

/-- The whole per-request context build of `handleSendMessage`: the
preserve id is computed on the full list, the window is applied, then the
context units are built. -/
def buildContext (msgs : List Message) : List ContentU :=
  mkHistory (windowMessages msgs) (lastPresentationId msgs)

/-- The per-message update of `streamToSession` (App.tsx lines 128-133):
append the text delta (`chunk.text || ''`) and replace the sources whenever
the chunk carries a sources array (`chunk.sources || m.sources`). -/
def chunkMsg (m : Message) (chunk : Chunk) : Message :=
  { m with
    content := m.content ++ chunk.text.getD "",
    sources := match chunk.sources with
               | some src => some src
               | none => m.sources }

/-- `streamToSession` (App.tsx lines 125-136). -/
def streamToSession (sessions : List Session) (sessionId messageId : String)
    (chunk : Chunk) : List Session :=
  sessions.map fun s =>
    if s.id ≠ sessionId then s
    else { s with
           messages := s.messages.map fun m =>
             if m.id ≠ messageId then m else chunkMsg m chunk }

/-- `updateSession` (src/unnamed/part_000 lines 122-128) restricted to a
messages update, which is the only field the send path updates through it
(title generation is an external service call out of scope here). -/
def updateSessionMessages (sessions : List Session) (sessionId : String)
    (msgs : List Message) : List Session :=
  sessions.map fun s =>
    if s.id = sessionId then { s with messages := msgs } else s

/-- `handleCancelGeneration` (src/unnamed/part_000 lines 154-160): drop every
in-progress message of the cancelled session. -/
def handleCancelGeneration (sessions : List Session) (sessionId : String) : List Session :=
  sessions.map fun s =>
    if s.id ≠ sessionId then s
    else { s with messages := s.messages.filter fun m => m.status ≠ some MsgStatus.inProgress }

/-- Ascending `createdAt` comparison used by the quota-eviction sort. -/
def ascCreated (a b : Session) : Prop := a.createdAt ≤ b.createdAt

/-- Descending `createdAt` comparison used to pick the new active session. -/
def descCreated (a b : Session) : Prop := b.createdAt ≤ a.createdAt

instance : DecidableRel ascCreated := fun a b => Nat.decLe a.createdAt b.createdAt

instance : DecidableRel descCreated := fun a b => Nat.decLe b.createdAt a.createdAt

instance : IsTotal Session ascCreated := ⟨fun a b => Nat.le_total a.createdAt b.createdAt⟩

instance : IsTrans Session ascCreated := ⟨fun _ _ _ h h' => Nat.le_trans h h'⟩

instance : IsTotal Session descCreated := ⟨fun a b => Nat.le_total b.createdAt a.createdAt⟩

instance : IsTrans Session descCreated := ⟨fun _ _ _ h h' => Nat.le_trans h' h⟩

/-- The quota-exceeded recovery of the persistence effect (App.tsx lines
60-78): sort a copy ascending by `createdAt`, remove the head's session from
the list, and if it was active, sort the pruned list descending **in place**
(the JS `prunedSessions.sort` mutates the array that is then stored) and make
its head active.  JS `Array.prototype.sort` is stable; `insertionSort` is the
matching stable sort. -/
def handleQuotaExceeded (sessions : List Session) (active : Option String) :
    List Session × Option String :=
  match List.insertionSort ascCreated sessions with
  | [] => (sessions, active)
  | oldest :: _ =>
    let pruned := sessions.filter fun s => s.id ≠ oldest.id
    if active = some oldest.id then
      let newestFirst := List.insertionSort descCreated pruned
      (newestFirst, newestFirst.head?.map Session.id)
    else (pruned, active)

/-- The per-stream source accumulation of `generateTextWithSearchStream`
(services/geminiService.ts lines 285-294): push each chunk source whose uri
is non-empty and not yet recorded; first-seen title wins. -/
def accumSources (acc : List SourceT) (chunkSources : List SourceT) : List SourceT :=
  chunkSources.foldl
    (fun a src => if src.uri ≠ "" ∧ (∀ s ∈ a, s.uri ≠ src.uri) then a ++ [src] else a)
    acc

theorem ciCharEq_cases {p c : Char} (h : ciCharEq p c = true) : c = p ∨ c = ucase p := by
  unfold ciCharEq at h
  rcases Bool.or_eq_true _ _ |>.mp h with h' | h'
  · exact Or.inl (by simpa using h')
  · exact Or.inr (by simpa using h')

theorem ciStartsWith_cons {p c : Char} {ps cs : List Char}
    (h : ciStartsWith (p :: ps) (c :: cs) = true) :
    ciCharEq p c = true ∧ ciStartsWith ps cs = true := by
  simpa [ciStartsWith, Bool.and_eq_true] using h

theorem ciStartsWith_nil_false {p : Char} {ps : List Char} :
    ciStartsWith (p :: ps) [] = false := rfl

theorem existsStartAt_head {c : Char} {cs : List Char}
    (h : existsStartAt (c :: cs) = true) : c = '<' := by
  unfold existsStartAt at h
  rcases Bool.or_eq_true _ _ |>.mp h with h' | h'
  · have := (ciStartsWith_cons (by simpa using h')).1
    rcases ciCharEq_cases this with h'' | h'' <;> simpa using h''
  · unfold isDoctypeAt at h'
    have := (Bool.and_eq_true _ _).mp h' |>.1
    have := (ciStartsWith_cons (by simpa using this)).1
    rcases ciCharEq_cases this with h'' | h'' <;> simpa using h''

theorem existsStartAt_false_of_head {c : Char} {cs : List Char} (h : c ≠ '<') :
    existsStartAt (c :: cs) = false := by
  cases hx : existsStartAt (c :: cs)
  · rfl
  · exact absurd (existsStartAt_head hx) h

theorem closeAt_head {c : Char} {cs : List Char}
    (h : ciStartsWith "</html>".data (c :: cs) = true) : c = '<' := by
  have := (ciStartsWith_cons (by simpa using h)).1
  rcases ciCharEq_cases this with h'' | h'' <;> simpa using h''

theorem closeAt_false_of_head {c : Char} {cs : List Char} (h : c ≠ '<') :
    ciStartsWith "</html>".data (c :: cs) = false := by
  cases hx : ciStartsWith "</html>".data (c :: cs)
  · rfl
  · exact absurd (closeAt_head hx) h

theorem fenceMatchAt_head {c : Char} {cs : List Char}
    (h : fenceMatchAt (c :: cs) = true) : c = tickChar := by
  unfold fenceMatchAt at h
  have := (Bool.and_eq_true _ _).mp h |>.1
  have := (ciStartsWith_cons (by simpa using this)).1
  rcases ciCharEq_cases this with h'' | h'' <;> simpa using h''

theorem findSufIdx_eq_some {p : List Char → Bool} (hp0 : p [] = false) :
    ∀ (l : List Char) (k : Nat), (∀ i < k, p (l.drop i) = false) →
      p (l.drop k) = true → findSufIdx p l = some k := by
  intro l
  induction l with
  | nil => intro k _ h2; simp at h2; rw [hp0] at h2; cases h2
  | cons c rest ih =>
    intro k h1 h2
    cases k with
    | zero =>
      simp only [List.drop_zero] at h2
      simp [findSufIdx, h2]
    | succ k' =>
      have h0 := h1 0 (Nat.succ_pos _)
      simp only [List.drop_zero] at h0
      rw [findSufIdx, if_neg (by simp [h0])]
      rw [ih k' (fun i hi => h1 (i + 1) (by omega)) h2]
      rfl

theorem findSufIdx_eq_none {p : List Char → Bool} :
    ∀ (l : List Char), (∀ i < l.length, p (l.drop i) = false) →
      findSufIdx p l = none := by
  intro l
  induction l with
  | nil => intro _; rfl
  | cons c rest ih =>
    intro h1
    have h0 := h1 0 (by simp)
    simp only [List.drop_zero] at h0
    rw [findSufIdx, if_neg (by simp [h0])]
    rw [ih (fun i hi => h1 (i + 1) (by simpa using Nat.succ_lt_succ hi))]
    rfl

theorem findSufIdx_spec_true {p : List Char → Bool} :
    ∀ {l : List Char} {i : Nat}, findSufIdx p l = some i → p (l.drop i) = true := by
  intro l
  induction l with
  | nil => intro i h; cases h
  | cons c rest ih =>
    intro i h
    rw [findSufIdx] at h
    by_cases hp : p (c :: rest) = true
    · rw [if_pos hp] at h
      cases h; simpa using hp
    · rw [if_neg hp] at h
      cases hfind : findSufIdx p rest with
      | none => rw [hfind] at h; cases h
      | some j =>
        rw [hfind] at h
        simp only [Option.map_some'] at h
        cases h
        simpa using ih hfind

theorem findSufIdx_spec_before {p : List Char → Bool} :
    ∀ {l : List Char} {i : Nat}, findSufIdx p l = some i →
      ∀ j < i, p (l.drop j) = false := by
  intro l
  induction l with
  | nil => intro i h; cases h
  | cons c rest ih =>
    intro i h j hj
    rw [findSufIdx] at h
    by_cases hp : p (c :: rest) = true
    · rw [if_pos hp] at h; cases h; omega
    · rw [if_neg hp] at h
      cases hfind : findSufIdx p rest with
      | none => rw [hfind] at h; cases h
      | some j' =>
        rw [hfind] at h
        simp only [Option.map_some'] at h
        cases h
        cases j with
        | zero => simpa using Bool.of_not_eq_true hp
        | succ j'' => simpa using ih hfind j'' (by omega)

theorem lastSufIdx_eq_none {p : List Char → Bool} :
    ∀ (l : List Char), (∀ i < l.length, p (l.drop i) = false) →
      lastSufIdx p l = none := by
  intro l
  induction l with
  | nil => intro _; rfl
  | cons c rest ih =>
    intro h1
    have h0 := h1 0 (by simp)
    simp only [List.drop_zero] at h0
    rw [lastSufIdx, ih (fun i hi => h1 (i + 1) (by simpa using Nat.succ_lt_succ hi))]
    simp [h0]

theorem lastSufIdx_eq_some {p : List Char → Bool} (hp0 : p [] = false) :
    ∀ (l : List Char) (k : Nat), p (l.drop k) = true →
      (∀ i, k < i → p (l.drop i) = false) → lastSufIdx p l = some k := by
  intro l
  induction l with
  | nil => intro k h2 _; simp at h2; rw [hp0] at h2; cases h2
  | cons c rest ih =>
    intro k h2 h3
    cases k with
    | zero =>
      have hrest : lastSufIdx p rest = none := by
        apply lastSufIdx_eq_none
        intro i _
        have := h3 (i + 1) (Nat.succ_pos _)
        simpa using this
      simp only [List.drop_zero] at h2
      rw [lastSufIdx, hrest]
      simp [h2]
    | succ k' =>
      have hrest : lastSufIdx p rest = some k' := by
        apply ih k' (by simpa using h2)
        intro i hi
        have := h3 (i + 1) (by omega)
        simpa using this
      rw [lastSufIdx, hrest]

theorem ciStartsWith_length_le :
    ∀ {pat l : List Char}, ciStartsWith pat l = true → pat.length ≤ l.length := by
  intro pat
  induction pat with
  | nil => intro l _; simp
  | cons p ps ih =>
    intro l h
    cases l with
    | nil => cases h
    | cons c cs =>
      have := (ciStartsWith_cons h).2
      simpa using Nat.succ_le_succ (ih this)

theorem ciStartsWith_append_left :
    ∀ {pat a : List Char} (b : List Char), ciStartsWith pat a = true →
      ciStartsWith pat (a ++ b) = true := by
  intro pat
  induction pat with
  | nil => intro a b _; rfl
  | cons p ps ih =>
    intro a b h
    cases a with
    | nil => cases h
    | cons c cs =>
      have h' := ciStartsWith_cons h
      simpa [ciStartsWith, h'.1] using ih b h'.2

theorem ciStartsWith_append_of_le :
    ∀ {pat a : List Char} (b : List Char), pat.length ≤ a.length →
      ciStartsWith pat (a ++ b) = ciStartsWith pat a := by
  intro pat
  induction pat with
  | nil => intro a b _; rfl
  | cons p ps ih =>
    intro a b hlen
    cases a with
    | nil => simp at hlen
    | cons c cs =>
      simp only [List.cons_append, ciStartsWith]
      rw [show cs.append b = cs ++ b from rfl, ih b (by simpa using Nat.le_of_succ_le_succ hlen)]

theorem ciStartsWith_take :
    ∀ {pat l : List Char} (n : Nat), pat.length ≤ n → ciStartsWith pat l = true →
      ciStartsWith pat (l.take n) = true := by
  intro pat
  induction pat with
  | nil => intro l n _ _; rfl
  | cons p ps ih =>
    intro l n hn h
    cases l with
    | nil => cases h
    | cons c cs =>
      cases n with
      | zero => simp at hn
      | succ n' =>
        have h' := ciStartsWith_cons h
        simpa [List.take, ciStartsWith, h'.1] using
          ih n' (Nat.le_of_succ_le_succ hn) h'.2

theorem beginsWith_refl_append : ∀ (p r : List Char), beginsWith p (p ++ r) = true := by
  intro p
  induction p with
  | nil => intro r; rfl
  | cons c cs ih => intro r; simpa [beginsWith] using ih r

theorem ciStartsWith_of_beginsWith :
    ∀ {pat l : List Char}, beginsWith pat l = true → ciStartsWith pat l = true := by
  intro pat
  induction pat with
  | nil => intro l _; rfl
  | cons p ps ih =>
    intro l h
    cases l with
    | nil => cases h
    | cons c cs =>
      have h' : (p == c) = true ∧ beginsWith ps cs = true := by
        simpa [beginsWith, Bool.and_eq_true] using h
      have hc : c = p := by
        have := h'.1; simp at this; exact this.symm
      subst hc
      simp [ciStartsWith, ciCharEq, ih h'.2]

theorem ciStartsWith_self_append (p r : List Char) : ciStartsWith p (p ++ r) = true :=
  ciStartsWith_of_beginsWith (beginsWith_refl_append p r)

theorem drop_append_le {a : List Char} (b : List Char) :
    ∀ {i : Nat}, i ≤ a.length → (a ++ b).drop i = a.drop i ++ b := by
  induction a with
  | nil =>
    intro i hi
    have : i = 0 := by simpa using hi
    subst this; rfl
  | cons c cs ih =>
    intro i hi
    cases i with
    | zero => rfl
    | succ i' => simpa using ih (by simpa using Nat.le_of_succ_le_succ hi)

theorem suffix_head_mem {a : List Char} (b : List Char) {i : Nat} (hi : i < a.length) :
    ∃ c cs, (a ++ b).drop i = c :: cs ∧ c ∈ a := by
  rw [drop_append_le b (Nat.le_of_lt hi)]
  rw [List.drop_eq_getElem_cons hi]
  exact ⟨a[i], a.drop (i + 1) ++ b, rfl, List.getElem_mem hi⟩

theorem dropTrail_eq_rdropWhile (l : List Char) :
    dropTrail l = List.rdropWhile isJsSpace l := rfl

theorem dropWhile_head_false (p : Char → Bool) :
    ∀ (l : List Char) (c : Char) (rest : List Char),
      List.dropWhile p l = c :: rest → p c = false := by
  intro l
  induction l with
  | nil => intro c rest h; cases h
  | cons x xs ih =>
    intro c rest h
    rw [List.dropWhile_cons] at h
    by_cases hx : p x = true
    · rw [if_pos hx] at h; exact ih c rest h
    · rw [if_neg hx] at h
      injection h with h1 _
      rw [← h1]
      exact Bool.of_not_eq_true hx

theorem trimJs_idem (l : List Char) : trimJs (trimJs l) = trimJs l := by
  unfold trimJs
  rw [dropTrail_eq_rdropWhile, dropTrail_eq_rdropWhile]
  set m := l.dropWhile isJsSpace with hm
  have hm2 : List.dropWhile isJsSpace (List.rdropWhile isJsSpace m) =
      List.rdropWhile isJsSpace m := by
    cases hx : List.rdropWhile isJsSpace m with
    | nil => rfl
    | cons c cs =>
      obtain ⟨t, ht⟩ := List.rdropWhile_prefix isJsSpace m
      rw [hx] at ht
      have hcons : List.dropWhile isJsSpace l = c :: (cs ++ t) := by
        rw [← hm, ← ht]; simp
      have hns : isJsSpace c = false := dropWhile_head_false isJsSpace l c (cs ++ t) hcons
      simp [List.dropWhile_cons, hns]
  rw [hm2, List.rdropWhile_idempotent]

theorem dropTrail_decomp (l : List Char) :
    l = dropTrail l ++ List.rtakeWhile isJsSpace l ∧
      ∀ c ∈ List.rtakeWhile isJsSpace l, isJsSpace c = true := by
  constructor
  · rw [dropTrail_eq_rdropWhile]
    conv_lhs => rw [← l.reverse_reverse]
    rw [← List.takeWhile_append_dropWhile isJsSpace l.reverse]
    rw [List.reverse_append]
    rfl
  · intro c hc
    exact List.mem_rtakeWhile_imp hc

theorem ciStartsWith_space_append :
    ∀ (pat front back : List Char),
      (∀ pc ∈ pat, isJsSpace pc = false ∧ isJsSpace (ucase pc) = false) →
      (∀ c ∈ back, isJsSpace c = true) →
      ciStartsWith pat (front ++ back) = true → pat.length ≤ front.length := by
  intro pat
  induction pat with
  | nil => intro front back _ _ _; simp
  | cons p ps ih =>
    intro front back hq hsp h
    cases front with
    | nil =>
      exfalso
      cases back with
      | nil => cases h
      | cons c cs =>
        have h' := ciStartsWith_cons (show ciStartsWith (p :: ps) (c :: cs) = true from h)
        have hc := hsp c (by simp)
        rcases ciCharEq_cases h'.1 with hx | hx
        · rw [hx, (hq p (by simp)).1] at hc; cases hc
        · rw [hx, (hq p (by simp)).2] at hc; cases hc
    | cons f fr =>
      have h' := ciStartsWith_cons (show ciStartsWith (p :: ps) (f :: (fr ++ back)) = true from h)
      simpa using Nat.succ_le_succ (ih fr back (fun pc hpc => hq pc (by simp [hpc])) hsp h'.2)

theorem ciStartsWith_drop_bound (q : Char → Bool) :
    ∀ (pat l : List Char) (i : Nat) (c : Char) (cs : List Char),
      (∀ pc ∈ pat, q pc = false ∧ q (ucase pc) = false) →
      ciStartsWith pat l = true → l.drop i = c :: cs → q c = true →
      pat.length ≤ i := by
  intro pat
  induction pat with
  | nil => intro l i c cs _ _ _ _; simp
  | cons p ps ih =>
    intro l i c cs hq h hdrop hqc
    cases l with
    | nil => cases h
    | cons x xs =>
      have h' := ciStartsWith_cons h
      cases i with
      | zero =>
        exfalso
        simp only [List.drop_zero] at hdrop
        have hx : x = c := by
          have := congrArg List.head? hdrop
          simpa using this
        rcases ciCharEq_cases h'.1 with hy | hy
        · rw [← hx, hy, (hq p (by simp)).1] at hqc; cases hqc
        · rw [← hx, hy, (hq p (by simp)).2] at hqc; cases hqc
      | succ i' =>
        have : xs.drop i' = c :: cs := by simpa using hdrop
        simpa using Nat.succ_le_succ
          (ih xs i' c cs (fun pc hpc => hq pc (by simp [hpc])) h'.2 this hqc)

theorem ciStartsWith_dropTrail {pat l : List Char}
    (hq : ∀ pc ∈ pat, isJsSpace pc = false ∧ isJsSpace (ucase pc) = false)
    (h : ciStartsWith pat l = true) : ciStartsWith pat (dropTrail l) = true := by
  obtain ⟨hdecomp, hback⟩ := dropTrail_decomp l
  have hlen : pat.length ≤ (dropTrail l).length := by
    apply ciStartsWith_space_append pat (dropTrail l) (List.rtakeWhile isJsSpace l) hq hback
    rw [← hdecomp]; exact h
  have h2 := h
  conv at h2 => rw [hdecomp]
  rwa [ciStartsWith_append_of_le _ hlen] at h2

theorem ciStartsWith_trimJs {pat l : List Char}
    (hq : ∀ pc ∈ pat, isJsSpace pc = false ∧ isJsSpace (ucase pc) = false)
    (hne : pat ≠ [])
    (h : ciStartsWith pat l = true) : ciStartsWith pat (trimJs l) = true := by
  unfold trimJs
  have hfirst : l.dropWhile isJsSpace = l := by
    cases pat with
    | nil => exact absurd rfl hne
    | cons p ps =>
      cases l with
      | nil => cases h
      | cons c cs =>
        have h' := ciStartsWith_cons h
        have hns : isJsSpace c = false := by
          rcases ciCharEq_cases h'.1 with hx | hx
          · rw [hx]; exact (hq p (by simp)).1
          · rw [hx]; exact (hq p (by simp)).2
        simp [List.dropWhile_cons, hns]
  rw [hfirst]
  exact ciStartsWith_dropTrail hq h

theorem matchB64At_eq_none {l : List Char}
    (h : beginsWith "data:image/".data l = false) : matchB64At l = none := by
  unfold matchB64At
  rw [h]
  rfl

theorem replaceB64Go_id :
    ∀ (l : List Char) (fuel : Nat), l.length ≤ fuel →
      (∀ i, beginsWith "data:image/".data (l.drop i) = false) →
      replaceB64Go fuel l = l := by
  intro l
  induction l with
  | nil => intro fuel _ _; cases fuel <;> rfl
  | cons c rest ih =>
    intro fuel hfuel hb
    cases fuel with
    | zero => simp at hfuel
    | succ f =>
      rw [replaceB64Go, matchB64At_eq_none (by simpa using hb 0)]
      rw [ih f (by simpa using hfuel) (fun i => by simpa using hb (i + 1))]

theorem replaceB64_id {l : List Char}
    (hb : ∀ i < l.length, beginsWith "data:image/".data (l.drop i) = false) :
    replaceB64 l = l := by
  apply replaceB64Go_id l l.length (Nat.le_refl _)
  intro i
  by_cases hi : i < l.length
  · exact hb i hi
  · rw [List.drop_eq_nil_of_le (by omega)]
    cases hx : "data:image/".data with
    | nil => simp at hx
    | cons a b => rfl

theorem find?_append {α : Type} (p : α → Bool) :
    ∀ (a b : List α), (a ++ b).find? p =
      match a.find? p with
      | some x => some x
      | none => b.find? p := by
  intro a b
  induction a with
  | nil => simp
  | cons x xs ih =>
    by_cases hx : p x = true
    · simp [List.find?, hx]
    · have hx' : p x = false := Bool.of_not_eq_true hx
      simp only [List.cons_append, List.find?, hx']
      exact ih

theorem str_append_empty (s : String) : s ++ "" = s := by
  cases s with
  | mk data =>
    show String.mk (data ++ []) = String.mk data
    rw [List.append_nil]

theorem mem_of_drop_cons {l : List Char} {i : Nat} {c : Char} {cs : List Char}
    (h : l.drop i = c :: cs) : c ∈ l := by
  have hi : i < l.length := by
    by_contra hx
    rw [List.drop_eq_nil_of_le (by omega)] at h
    cases h
  rw [List.drop_eq_getElem_cons hi] at h
  have h1 : l[i] = c := by
    injection h with h1 h2
  rw [← h1]
  exact List.getElem_mem hi

/-- C1: the claim says citation batches are merged into the in-progress
message's sources with de-duplication by uri; in fact `streamToSession`
replaces the sources wholesale with each arriving batch, so feeding
`[{a},{b}]` then `[{a},{c}]` ends with sources `[{a},{c}]`, not
`[{a},{b},{c}]`. -/
theorem C1_counterexample :
    (streamToSession (streamToSession
        [⟨"s1", "t", [⟨"m1", Role.assistant, "", MsgType.text, none, "",
            some MsgStatus.inProgress, none, none⟩], 0⟩]
        "s1" "m1" ⟨none, some [⟨"a", "A"⟩, ⟨"b", "B"⟩]⟩)
      "s1" "m1" ⟨none, some [⟨"a", "A2"⟩, ⟨"c", "C"⟩]⟩)
    = [⟨"s1", "t", [⟨"m1", Role.assistant, "", MsgType.text,
        some [⟨"a", "A2"⟩, ⟨"c", "C"⟩], "", some MsgStatus.inProgress, none, none⟩], 0⟩]
    ∧ (some [⟨"a", "A2"⟩, ⟨"c", "C"⟩] : Option (List SourceT))
      ≠ some [⟨"a", "A"⟩, ⟨"b", "B"⟩, ⟨"c", "C"⟩] := by decide

/-- C1 (amended): folding a citation batch into the in-progress message
replaces its sources with that batch (the last batch wins, so the fold is
not merging and the list can shrink); the uri de-duplication with
first-seen-title-wins happens upstream in the provider stream accumulator,
which merges the claim's two batches into the single final batch
`[{a},{b},{c}]`. -/
theorem C1_amended (sid mid title : String) (created : Nat) (m : Message)
    (b1 b2 : List SourceT) (hid : m.id = mid) :
    streamToSession (streamToSession [⟨sid, title, [m], created⟩] sid mid ⟨none, some b1⟩)
      sid mid ⟨none, some b2⟩
    = [⟨sid, title, [{ m with sources := some b2 }], created⟩]
    ∧ accumSources (accumSources [] [⟨"a", "A"⟩, ⟨"b", "B"⟩]) [⟨"a", "A2"⟩, ⟨"c", "C"⟩]
      = [⟨"a", "A"⟩, ⟨"b", "B"⟩, ⟨"c", "C"⟩] := by
  constructor
  · simp only [streamToSession, chunkMsg, List.map, hid]
    simp [str_append_empty]
  · decide

theorem C1_amended_witness :
    streamToSession (streamToSession
        [⟨"s1", "t", [⟨"m1", Role.user, "hi", MsgType.text, none, "", none, none, none⟩], 0⟩]
        "s1" "m1" ⟨none, some [⟨"x", "X"⟩]⟩)
      "s1" "m1" ⟨none, some [⟨"y", "Y"⟩]⟩
    = [⟨"s1", "t", [{ (⟨"m1", Role.user, "hi", MsgType.text, none, "", none, none, none⟩ : Message)
        with sources := some [⟨"y", "Y"⟩] }], 0⟩]
    ∧ accumSources (accumSources [] [⟨"a", "A"⟩, ⟨"b", "B"⟩]) [⟨"a", "A2"⟩, ⟨"c", "C"⟩]
      = [⟨"a", "A"⟩, ⟨"b", "B"⟩, ⟨"c", "C"⟩] :=
  C1_amended "s1" "m1" "t" 0 _ [⟨"x", "X"⟩] [⟨"y", "Y"⟩] rfl

/-- C2: the claim says an image attachment is sent inline iff its message is
among the last 3 of the windowed list; the code's condition
`messagesToProcess.length - index < 3` holds only for the last 2 positions,
so the third-from-last message's attachment is already replaced by the text
placeholder. -/
theorem C2_counterexample :
    (buildContext
      [⟨"1", Role.user, "", MsgType.text, none, "", none, none, some ⟨"d1", "image/png"⟩⟩,
       ⟨"2", Role.user, "", MsgType.text, none, "", none, none, some ⟨"d2", "image/png"⟩⟩,
       ⟨"3", Role.user, "", MsgType.text, none, "", none, none, some ⟨"d3", "image/png"⟩⟩]).head?
    = some ⟨CRole.user, [PartU.text "[Image attachment removed to save context]"]⟩
    ∧ PartU.text "[Image attachment removed to save context]"
      ≠ PartU.inlineData "image/png" "d1" := by decide

/-- C2 (amended): a message's image attachment is emitted as inline binary
data iff the message is among the last 2 messages of the windowed list by
position (`length - index < 3`); every earlier message's attachment part is
the text placeholder `"[Image attachment removed to save context]"`. -/
theorem C2_amended (total idx : Nat) (pid : Option String) (m : Message) (att : Attachment)
    (hAtt : m.attachment = some att) (hidx : idx < total) :
    (idx + 3 > total →
      (mkParts total idx pid m).head? = some (PartU.inlineData att.mimeType att.data))
    ∧ (idx + 3 ≤ total → (mkParts total idx pid m).head? = some (PartU.text attRemoved)) := by
  constructor
  · intro h
    have hc : total - idx < 3 := by omega
    simp [mkParts, hAtt, hc]
  · intro h
    have hc : ¬(total - idx < 3) := by omega
    simp [mkParts, hAtt, hc]

theorem C2_amended_witness :
    (mkParts 5 4 none
        ⟨"w", Role.user, "", MsgType.text, none, "", none, none, some ⟨"dw", "image/png"⟩⟩).head?
      = some (PartU.inlineData "image/png" "dw")
    ∧ (mkParts 5 0 none
        ⟨"w", Role.user, "", MsgType.text, none, "", none, none, some ⟨"dw", "image/png"⟩⟩).head?
      = some (PartU.text attRemoved) :=
  ⟨(C2_amended 5 4 none _ ⟨"dw", "image/png"⟩ rfl (by decide)).1 (by decide),
   (C2_amended 5 0 none _ ⟨"dw", "image/png"⟩ rfl (by decide)).2 (by decide)⟩

/-- C4: the claim says the preserve target's content is emitted verbatim,
character for character; but the base64 image-data redaction runs
unconditionally before the preserve check, so a preserved content containing
an inline base64 image URI is altered. -/
theorem C4_counterexample :
    sanitizeHistoryContent "<html><img src=\"data:image/png;base64,AB\"></html>" true
      = "<html><img src=\"[Base64 Image Data Removed]\"></html>"
    ∧ "<html><img src=\"[Base64 Image Data Removed]\"></html>"
      ≠ "<html><img src=\"data:image/png;base64,AB\"></html>" := by decide

/-- C4 (amended): the preserve target's content is emitted verbatim up to the
unconditional base64 redaction — in particular, whenever the content contains
no occurrence of the literal `data:image/` (so no base64 image URI), the
output text equals the stored content character for character. -/
theorem C4_amended (s : String)
    (hB : ∀ i < s.data.length, beginsWith "data:image/".data (s.data.drop i) = false) :
    sanitizeHistoryContent s true = s := by
  unfold sanitizeHistoryContent sanitizeList
  simp only [if_pos]
  rw [replaceB64_id hB]

theorem C4_amended_witness :
    sanitizeHistoryContent "volcano report, verbatim content" true
      = "volcano report, verbatim content" :=
  C4_amended "volcano report, verbatim content" (by decide)

/-- C9: the extractor is total by construction, and: (1) an input with no
match of the start pattern anywhere yields the empty string; (2) a malformed,
never-closed document (no `</html>` anywhere, no backtick so no fence strip)
is returned in full from its start, trimmed. -/
theorem C9_total (s : String) :
    ((∀ i < s.data.length, existsStartAt (s.data.drop i) = false) →
      cleanHtmlContent s = "")
    ∧ (∀ i < s.data.length,
        existsStartAt (s.data.drop i) = true →
        (∀ j < i, existsStartAt (s.data.drop j) = false) →
        (∀ k < s.data.length, ciStartsWith "</html>".data (s.data.drop k) = false) →
        (∀ c ∈ s.data, c ≠ tickChar) →
        cleanHtmlContent s = String.mk (trimJs (s.data.drop i))) := by
  constructor
  · intro h
    unfold cleanHtmlContent cleanHtmlList
    rw [findSufIdx_eq_none s.data h]
  · intro i hi hstart hbefore hclose htick
    have hcl : findSufIdx (ciStartsWith "</html>".data) (s.data.drop i) = none := by
      apply findSufIdx_eq_none
      intro j hj
      rw [List.drop_drop]
      apply hclose
      rw [List.length_drop] at hj
      omega
    have hfence : stripTrailingFence (s.data.drop i) = s.data.drop i := by
      unfold stripTrailingFence
      rw [findSufIdx_eq_none]
      intro j hj
      rw [List.drop_drop]
      cases hx : s.data.drop (i + j) with
      | nil => rfl
      | cons c cs =>
        cases hf : fenceMatchAt (c :: cs) with
        | false => rfl
        | true =>
          exact absurd (fenceMatchAt_head hf) (htick c (mem_of_drop_cons hx))
    show String.mk (cleanHtmlList s.data) = String.mk (trimJs (s.data.drop i))
    apply congrArg String.mk
    unfold cleanHtmlList
    rw [@findSufIdx_eq_some existsStartAt rfl s.data i hbefore hstart]
    show (match findSufIdx (ciStartsWith "</html>".data) (s.data.drop i) with
          | some j => trimJs ((s.data.drop i).take (j + 7))
          | none => trimJs (stripTrailingFence (s.data.drop i))) = trimJs (s.data.drop i)
    rw [hcl, hfence]

theorem C9_total_witness :
    cleanHtmlContent "just plain text" = ""
    ∧ cleanHtmlContent "hey <html><p>hi" = String.mk (trimJs ("hey <html><p>hi".data.drop 4)) :=
  ⟨(C9_total "just plain text").1 (by decide),
   (C9_total "hey <html><p>hi").2 4 (by decide) (by decide) (by decide) (by decide) (by decide)⟩

/-- C3: the claim says an embedded document is redacted even when it was
never closed with `</html>`; in fact the sanitizer's `lastIndexOf('</html>')`
yields `afterIndex = 6`, which is not beyond the document start here, so this
never-closed document (which the extractor does locate) is left untouched
and no placeholder (no `[`) appears in the output. -/
theorem C3_counterexample :
    sanitizeHistoryContent "note: <html><body>secret" false = "note: <html><body>secret"
    ∧ cleanHtmlContent "note: <html><body>secret" = "<html><body>secret"
    ∧ ∀ c ∈ (sanitizeHistoryContent "note: <html><body>secret" false).data, c ≠ '[' := by
  decide

/-- C3 (amended): for a non-preserved message whose content is
`before ++ doc ++ after` with a closed document `doc` (starting `<html`,
ending with its last `</html>` occurrence) and `<`-free surroundings and no
base64 URI, the sanitizer replaces the span from the document start to just
after the **last** `</html>` with the placeholder, keeping the surrounding
text; a document never closed with `</html>` is left in place (see the
counterexample). -/
theorem C3_amended (before doc after : List Char)
    (hb : ∀ c ∈ before, c ≠ '<')
    (ha : ∀ c ∈ after, c ≠ '<')
    (hdocStart : ciStartsWith "<html".data doc = true)
    (hdocEnd : doc.drop (doc.length - 7) = "</html>".data)
    (hdocLen : 7 ≤ doc.length)
    (hB64 : ∀ i < (before ++ (doc ++ after)).length,
      beginsWith "data:image/".data ((before ++ (doc ++ after)).drop i) = false) :
    sanitizeList (before ++ (doc ++ after)) false
      = before ++ (omitted.data ++ after) := by
  set content := before ++ (doc ++ after) with hcontent
  have hclean : replaceB64 content = content := replaceB64_id hB64
  have hstart : findSufIdx existsStartAt content = some before.length := by
    apply findSufIdx_eq_some rfl
    · intro j hj
      obtain ⟨c, cs, hdropc, hmem⟩ := suffix_head_mem (doc ++ after) hj
      rw [hcontent, hdropc]
      exact existsStartAt_false_of_head (hb c hmem)
    · rw [hcontent, List.drop_left]
      unfold existsStartAt
      rw [ciStartsWith_append_left after hdocStart]
      rfl
  have hdropk : content.drop (before.length + (doc.length - 7)) = "</html>".data ++ after := by
    rw [← List.drop_drop, hcontent, List.drop_left]
    rw [drop_append_le after (by omega), hdocEnd]
  have hlast : lastSufIdx (ciStartsWith "</html>".data) content
      = some (before.length + (doc.length - 7)) := by
    apply lastSufIdx_eq_some rfl
    · rw [hdropk]
      exact ciStartsWith_self_append _ _
    · intro i hi
      have hdecomp : content.drop i
          = ("</html>".data ++ after).drop (i - (before.length + (doc.length - 7))) := by
        rw [← hdropk, List.drop_drop]
        congr 1
        omega
      rw [hdecomp]
      set j := i - (before.length + (doc.length - 7)) with hj
      have hj1 : 1 ≤ j := by omega
      by_cases hj7 : j < 7
      · interval_cases j <;> exact closeAt_false_of_head (by decide)
      · have h77 : ("</html>".data ++ after).drop 7 = after := by
          have hlen7 : ("</html>".data).length = 7 := by decide
          rw [← hlen7, List.drop_left]
        have hja : ("</html>".data ++ after).drop j = after.drop (j - 7) := by
          conv_lhs => rw [show j = 7 + (j - 7) by omega]
          rw [← List.drop_drop, h77]
        rw [hja]
        cases hx : after.drop (j - 7) with
        | nil => rfl
        | cons c cs => exact closeAt_false_of_head (ha c (mem_of_drop_cons hx))
  have hcond : before.length < before.length + (doc.length - 7) + 7 := by omega
  simp only [sanitizeList, hclean, hstart, hlast]
  rw [if_pos hcond]
  have htake : content.take before.length = before := by
    rw [hcontent]; exact List.take_left before (doc ++ after)
  have hdrop : content.drop (before.length + (doc.length - 7) + 7) = after := by
    have heq : before.length + (doc.length - 7) + 7 = before.length + doc.length := by omega
    rw [heq, ← List.drop_drop, hcontent, List.drop_left, List.drop_left]
  rw [htake, hdrop]
  simp [List.append_assoc]

theorem C3_amended_witness :
    sanitizeList ("See: ".data ++ ("<html><body>x</body></html>".data ++ " ok".data)) false
      = "See: ".data ++ (omitted.data ++ " ok".data) :=
  C3_amended "See: ".data "<html><body>x</body></html>".data " ok".data
    (by decide) (by decide) (by decide) (by decide) (by decide) (by decide)

theorem isDoctypeAt_concrete (rest : List Char) :
    isDoctypeAt ("<!doctype html>".data ++ rest) = true := by
  have hsplit : "<!doctype html>".data = "<!doctype".data ++ " html>".data := by decide
  have h9 : ("<!doctype html>".data ++ rest).drop 9 = " html>".data ++ rest := by
    rw [hsplit, List.append_assoc, List.drop_left' (by decide)]
  have hw : (" html>".data ++ rest).takeWhile isJsSpace = [' '] := by
    rw [List.takeWhile_append, if_neg (by decide)]
    decide
  unfold isDoctypeAt
  rw [Bool.and_eq_true]
  constructor
  · rw [hsplit, List.append_assoc]
    exact ciStartsWith_self_append _ _
  · rw [Bool.and_eq_true]
    constructor
    · rw [h9, hw]
      decide
    · rw [h9, hw]
      have hd1 : (" html>".data ++ rest).drop 1 = "html>".data ++ rest := by
        rw [show " html>".data = [' '] ++ "html>".data from by decide, List.append_assoc]
        rw [List.drop_left' (by decide)]
      rw [show ([' '] : List Char).length = 1 from rfl, hd1]
      exact ciStartsWith_self_append _ _

/-- C5: the extractor round-trip — for a well-formed document `D` (starting
with `<!doctype html>`, ending with its only `</html>`) framed by a prefix
containing no `<` (hence no document start tag) and an arbitrary suffix,
`cleanHtmlContent (pre ++ D ++ suf)` cuts exactly at the 7 characters past
`</html>` and returns `trim(D)`; suffix content is discarded entirely. -/
theorem C5_roundtrip (pre D suf : List Char)
    (hpre : ∀ c ∈ pre, c ≠ '<')
    (hStart : D.take 15 = "<!doctype html>".data)
    (hEnd : D.drop (D.length - 7) = "</html>".data)
    (hLen : 15 ≤ D.length)
    (hOnly : ∀ i < D.length - 7, ciStartsWith "</html>".data (D.drop i) = false) :
    cleanHtmlContent (String.mk (pre ++ (D ++ suf))) = String.mk (trimJs D) := by
  have hD : D = "<!doctype html>".data ++ D.drop 15 := by
    conv_lhs => rw [← List.take_append_drop 15 D]
    rw [hStart]
  set content := pre ++ (D ++ suf) with hcontent
  have hdropPre : content.drop pre.length = D ++ suf := by
    rw [hcontent, List.drop_left]
  have hstart : findSufIdx existsStartAt content = some pre.length := by
    apply findSufIdx_eq_some rfl
    · intro j hj
      obtain ⟨c, cs, hdropc, hmem⟩ := suffix_head_mem (D ++ suf) hj
      rw [hcontent, hdropc]
      exact existsStartAt_false_of_head (hpre c hmem)
    · rw [hdropPre]
      unfold existsStartAt
      have hdt : isDoctypeAt (D ++ suf) = true := by
        conv_lhs => rw [hD, List.append_assoc]
        exact isDoctypeAt_concrete _
      rw [hdt]
      simp
  have hclose : findSufIdx (ciStartsWith "</html>".data) (D ++ suf)
      = some (D.length - 7) := by
    apply findSufIdx_eq_some rfl
    · intro j hj
      rw [drop_append_le suf (by omega)]
      rw [ciStartsWith_append_of_le suf (by
            rw [List.length_drop, show ("</html>".data).length = 7 from by decide]
            omega)]
      exact hOnly j hj
    · rw [drop_append_le suf (by omega), hEnd]
      exact ciStartsWith_self_append _ _
  have htake : (D ++ suf).take (D.length - 7 + 7) = D := by
    rw [show D.length - 7 + 7 = D.length from by omega]
    exact List.take_left D suf
  show String.mk (cleanHtmlList content) = _
  apply congrArg String.mk
  unfold cleanHtmlList
  rw [hstart]
  show (match findSufIdx (ciStartsWith "</html>".data) (content.drop pre.length) with
        | some j => trimJs ((content.drop pre.length).take (j + 7))
        | none => trimJs (stripTrailingFence (content.drop pre.length))) = trimJs D
  rw [hdropPre, hclose]
  show trimJs ((D ++ suf).take (D.length - 7 + 7)) = trimJs D
  rw [htake]

theorem C5_roundtrip_witness :
    cleanHtmlContent (String.mk
        ("Intro: ".data ++ ("<!doctype html><p>v</p></html>".data ++ " bye".data)))
      = String.mk (trimJs "<!doctype html><p>v</p></html>".data) :=
  C5_roundtrip "Intro: ".data "<!doctype html><p>v</p></html>".data " bye".data
    (by decide) (by decide) (by decide) (by decide) (by decide)

theorem ciStartsWith_ne_nil {p : Char} {ps l : List Char}
    (h : ciStartsWith (p :: ps) l = true) : l ≠ [] := by
  intro hnil
  rw [hnil] at h
  cases h

theorem doctype_two {l : List Char} (h : ciStartsWith "<!doctype".data l = true) :
    ∃ t, l = '<' :: '!' :: t := by
  cases l with
  | nil => cases h
  | cons c0 r0 =>
    have h0 := ciStartsWith_cons (show ciStartsWith ('<' :: "!doctype".data) (c0 :: r0) = true from h)
    cases r0 with
    | nil => cases h0.2
    | cons c1 t =>
      have h1 := ciStartsWith_cons
        (show ciStartsWith ('!' :: "doctype".data) (c1 :: t) = true from h0.2)
      have hc0 : c0 = '<' := by
        rcases ciCharEq_cases h0.1 with hx | hx <;> simpa using hx
      have hc1 : c1 = '!' := by
        rcases ciCharEq_cases h1.1 with hx | hx <;> simpa using hx
      exact ⟨t, by rw [hc0, hc1]⟩

/-- C10: output-shape guarantee of the extractor — for every input,
`cleanHtmlContent` returns either the empty string, or a non-empty string
that is trim-fixed (no leading or trailing whitespace) and begins,
case-insensitively, with `<!doctype` or `<html`. -/
theorem C10_shape (s : String) :
    cleanHtmlContent s = ""
    ∨ (cleanHtmlContent s ≠ ""
       ∧ trimJs (cleanHtmlContent s).data = (cleanHtmlContent s).data
       ∧ (ciStartsWith "<!doctype".data (cleanHtmlContent s).data = true
          ∨ ciStartsWith "<html".data (cleanHtmlContent s).data = true)) := by
  cases hf : findSufIdx existsStartAt s.data with
  | none =>
    left
    unfold cleanHtmlContent cleanHtmlList
    rw [hf]
  | some i =>
    have hred : cleanHtmlList s.data =
        (match findSufIdx (ciStartsWith "</html>".data) (s.data.drop i) with
         | some j => trimJs ((s.data.drop i).take (j + 7))
         | none => trimJs (stripTrailingFence (s.data.drop i))) := by
      unfold cleanHtmlList
      rw [hf]
    have hstart : existsStartAt (s.data.drop i) = true := findSufIdx_spec_true hf
    have hq5 : ∀ pc ∈ "<html".data, isJsSpace pc = false ∧ isJsSpace (ucase pc) = false := by
      decide
    have hq9 : ∀ pc ∈ "<!doctype".data,
        isJsSpace pc = false ∧ isJsSpace (ucase pc) = false := by decide
    have hqt5 : ∀ pc ∈ "<html".data,
        (pc == tickChar) = false ∧ (ucase pc == tickChar) = false := by decide
    have hqt9 : ∀ pc ∈ "<!doctype".data,
        (pc == tickChar) = false ∧ (ucase pc == tickChar) = false := by decide
    have hmain : ∀ pat : List Char, pat ≠ [] →
        (∀ pc ∈ pat, isJsSpace pc = false ∧ isJsSpace (ucase pc) = false) →
        ciStartsWith pat (cleanHtmlList s.data) = true →
        cleanHtmlContent s ≠ ""
        ∧ trimJs (cleanHtmlContent s).data = (cleanHtmlContent s).data := by
      intro pat hne hq hcs
      constructor
      · intro hempty
        have hdata : cleanHtmlList s.data = [] := congrArg String.data hempty
        cases pat with
        | nil => exact hne rfl
        | cons p ps => exact ciStartsWith_ne_nil hcs hdata
      · show trimJs (cleanHtmlList s.data) = cleanHtmlList s.data
        rw [hred]
        cases hcc : findSufIdx (ciStartsWith "</html>".data) (s.data.drop i) with
        | some j =>
          show trimJs (trimJs ((s.data.drop i).take (j + 7))) = _
          rw [trimJs_idem]
        | none =>
          show trimJs (trimJs (stripTrailingFence (s.data.drop i))) = _
          rw [trimJs_idem]
    have hstrip : ∀ pat : List Char,
        (∀ pc ∈ pat, (pc == tickChar) = false ∧ (ucase pc == tickChar) = false) →
        ciStartsWith pat (s.data.drop i) = true →
        ciStartsWith pat (stripTrailingFence (s.data.drop i)) = true := by
      intro pat hqt hp
      unfold stripTrailingFence
      cases hfc : findSufIdx fenceMatchAt (s.data.drop i) with
      | none => exact hp
      | some p =>
        have hft := findSufIdx_spec_true hfc
        cases hx : (s.data.drop i).drop p with
        | nil => rw [hx] at hft; cases hft
        | cons c cs =>
          have hft' : fenceMatchAt (c :: cs) = true := by rw [hx] at hft; exact hft
          have hc' : c = tickChar := fenceMatchAt_head hft'
          have hplen : pat.length ≤ p :=
            ciStartsWith_drop_bound (· == tickChar) pat _ p c cs hqt hp hx (by rw [hc']; rfl)
          exact ciStartsWith_take p hplen hp
    unfold existsStartAt at hstart
    rcases Bool.or_eq_true _ _ |>.mp hstart with hhtml | hdoct
    · -- "<html" case
      have hcs : ciStartsWith "<html".data (cleanHtmlList s.data) = true := by
        rw [hred]
        cases hc : findSufIdx (ciStartsWith "</html>".data) (s.data.drop i) with
        | some j =>
          show ciStartsWith "<html".data (trimJs ((s.data.drop i).take (j + 7))) = true
          refine ciStartsWith_trimJs hq5 (by decide) (ciStartsWith_take (j + 7) ?_ hhtml)
          have h5 : ("<html".data).length = 5 := by decide
          omega
        | none =>
          show ciStartsWith "<html".data
            (trimJs (stripTrailingFence (s.data.drop i))) = true
          exact ciStartsWith_trimJs hq5 (by decide) (hstrip "<html".data hqt5 hhtml)
      rcases hmain "<html".data (by decide) hq5 hcs with ⟨h1, h2⟩
      exact Or.inr ⟨h1, h2, Or.inr hcs⟩
    · -- doctype case
      have hdoc9 : ciStartsWith "<!doctype".data (s.data.drop i) = true := by
        unfold isDoctypeAt at hdoct
        exact (Bool.and_eq_true _ _ |>.mp hdoct).1
      have hcs : ciStartsWith "<!doctype".data (cleanHtmlList s.data) = true := by
        rw [hred]
        cases hc : findSufIdx (ciStartsWith "</html>".data) (s.data.drop i) with
        | some j =>
          show ciStartsWith "<!doctype".data (trimJs ((s.data.drop i).take (j + 7))) = true
          obtain ⟨t, ht⟩ := doctype_two hdoc9
          have hj2 : 2 ≤ j := by
            by_contra hlt
            push_neg at hlt
            have hct := findSufIdx_spec_true hc
            interval_cases j
            · rw [List.drop_zero, ht] at hct
              have h0 := ciStartsWith_cons
                (show ciStartsWith ('<' :: "/html>".data) ('<' :: '!' :: t) = true from hct)
              have h1 := ciStartsWith_cons
                (show ciStartsWith ('/' :: "html>".data) ('!' :: t) = true from h0.2)
              rcases ciCharEq_cases h1.1 with hx | hx <;> simp [ucase] at hx
            · rw [ht] at hct
              have h0 := ciStartsWith_cons
                (show ciStartsWith ('<' :: "/html>".data) ('!' :: t) = true from hct)
              rcases ciCharEq_cases h0.1 with hx | hx <;> simp [ucase] at hx
          refine ciStartsWith_trimJs hq9 (by decide) (ciStartsWith_take (j + 7) ?_ hdoc9)
          have h9 : ("<!doctype".data).length = 9 := by decide
          omega
        | none =>
          show ciStartsWith "<!doctype".data
            (trimJs (stripTrailingFence (s.data.drop i))) = true
          exact ciStartsWith_trimJs hq9 (by decide) (hstrip "<!doctype".data hqt9 hdoc9)
      rcases hmain "<!doctype".data (by decide) hq9 hcs with ⟨h1, h2⟩
      exact Or.inr ⟨h1, h2, Or.inl hcs⟩

theorem mkHistoryGo_pid_indep (total : Nat) (pid1 pid2 : Option String) :
    ∀ (msgs : List Message) (idx : Nat),
      (∀ m ∈ msgs, pid1 ≠ some m.id ∧ pid2 ≠ some m.id) →
      mkHistoryGo total pid1 idx msgs = mkHistoryGo total pid2 idx msgs := by
  intro msgs
  induction msgs with
  | nil => intro idx _; rfl
  | cons m rest ih =>
    intro idx h
    have h0 := h m (by simp)
    have hc : mkContent total idx pid1 m = mkContent total idx pid2 m := by
      unfold mkContent mkParts
      rw [decide_eq_false h0.1, decide_eq_false h0.2]
    simp only [mkHistoryGo]
    rw [hc, ih (idx + 1) (fun mq hmq => h mq (by simp [hmq]))]

/-- C6: recency window — the produced context of a list with more than 15
messages depends only on (and is exactly the context of) its last 15
messages; every earlier message contributes nothing, provided message ids
are unique across the window boundary (the data model's ids identify
messages). -/
theorem C6_window (pre tl : List Message)
    (hpre : pre ≠ []) (hlen : tl.length = 15)
    (hdisj : ∀ m ∈ tl, ∀ mp ∈ pre, m.id ≠ mp.id) :
    buildContext (pre ++ tl) = buildContext tl := by
  have hl : (pre ++ tl).length = pre.length + 15 := by
    rw [List.length_append, hlen]
  have hpos : 0 < pre.length := List.length_pos.mpr hpre
  have hwin1 : windowMessages (pre ++ tl) = tl := by
    unfold windowMessages
    rw [hl, if_pos (by omega), show pre.length + 15 - 15 = pre.length from by omega]
    exact List.drop_left pre tl
  have hwin2 : windowMessages tl = tl := by
    unfold windowMessages
    rw [hlen, if_neg (by omega)]
  unfold buildContext
  rw [hwin1, hwin2]
  unfold lastPresentationId
  rw [List.reverse_append, find?_append]
  cases hft : tl.reverse.find? isPresMsg with
  | some m => rfl
  | none =>
    cases hfp : pre.reverse.find? isPresMsg with
    | none => rfl
    | some mp =>
      have hmem : mp ∈ pre := List.mem_reverse.mp (List.mem_of_find?_eq_some hfp)
      show mkHistory tl (some mp.id) = mkHistory tl none
      unfold mkHistory
      apply mkHistoryGo_pid_indep
      intro m hm
      refine ⟨fun hx => ?_, by simp⟩
      have : mp.id = m.id := by injection hx with h1
      exact hdisj m hm mp hmem this.symm

theorem C6_window_witness :
    buildContext ([⟨"x", Role.user, "hi", MsgType.text, none, "", none, none, none⟩] ++
        (List.range 15).map (fun n =>
          ⟨toString n, Role.user, "hi", MsgType.text, none, "", none, none, none⟩))
      = buildContext ((List.range 15).map (fun n =>
          ⟨toString n, Role.user, "hi", MsgType.text, none, "", none, none, none⟩)) :=
  C6_window _ _ (by decide) (by decide) (by decide)

theorem map_id_on {α : Type} (f : α → α) :
    ∀ l : List α, (∀ x ∈ l, f x = x) → l.map f = l := by
  intro l
  induction l with
  | nil => intro _; rfl
  | cons x xs ih =>
    intro h
    rw [List.map, h x (by simp), ih (fun y hy => h y (by simp [hy]))]

theorem chunkMsg_fold_inv :
    ∀ (chunks : List Chunk) (a : Message),
      (chunks.foldl chunkMsg a).status = a.status
      ∧ (chunks.foldl chunkMsg a).id = a.id := by
  intro chunks
  induction chunks with
  | nil => intro a; exact ⟨rfl, rfl⟩
  | cons c cs ih =>
    intro a
    have := ih (chunkMsg a c)
    simpa [chunkMsg] using this

theorem streamFold (sid ttl : String) (created : Nat) (base : List Message) (aid : String) :
    ∀ (chunks : List Chunk) (a : Message), a.id = aid →
      (∀ m ∈ base, m.id ≠ aid) →
      chunks.foldl (fun acc c => streamToSession acc sid aid c)
        [⟨sid, ttl, base ++ [a], created⟩]
      = [⟨sid, ttl, base ++ [chunks.foldl chunkMsg a], created⟩] := by
  intro chunks
  induction chunks with
  | nil => intro a _ _; rfl
  | cons c cs ih =>
    intro a ha hbase
    show cs.foldl _ (streamToSession [⟨sid, ttl, base ++ [a], created⟩] sid aid c) = _
    have hmap : (base ++ [a]).map
          (fun m => if m.id ≠ aid then m else chunkMsg m c)
        = base ++ [chunkMsg a c] := by
      rw [List.map_append]
      rw [map_id_on _ base (fun m hm => if_pos (hbase m hm))]
      simp [ha]
    have hstep : streamToSession [⟨sid, ttl, base ++ [a], created⟩] sid aid c
        = [⟨sid, ttl, base ++ [chunkMsg a c], created⟩] := by
      unfold streamToSession
      simp only [List.map]
      rw [if_neg (by simp)]
      rw [hmap]
    rw [hstep]
    exact ih (chunkMsg a c) (by simp [chunkMsg, ha]) hbase

/-- C7: on explicit cancellation, the in-progress assistant message is
discarded (whatever fragments were already folded into it), the user's
message of the turn is retained, and the session's message list equals its
pre-turn state plus the user message — in particular cancellation produces
no error-typed message. -/
theorem C7_cancel (s : Session) (user assistant : Message) (chunks : List Chunk)
    (hS : ∀ m ∈ s.messages, m.status ≠ some MsgStatus.inProgress)
    (hU : user.status ≠ some MsgStatus.inProgress)
    (hA : assistant.status = some MsgStatus.inProgress)
    (hIdS : ∀ m ∈ s.messages, m.id ≠ assistant.id)
    (hIdU : user.id ≠ assistant.id) :
    handleCancelGeneration
      (chunks.foldl (fun acc c => streamToSession acc s.id assistant.id c)
        (updateSessionMessages [s] s.id (s.messages ++ [user, assistant])))
      s.id
    = [{ s with messages := s.messages ++ [user] }] := by
  have hupd : updateSessionMessages [s] s.id (s.messages ++ [user, assistant])
      = [⟨s.id, s.title, (s.messages ++ [user]) ++ [assistant], s.createdAt⟩] := by
    unfold updateSessionMessages
    simp [List.append_assoc]
  rw [hupd]
  rw [streamFold s.id s.title s.createdAt (s.messages ++ [user]) assistant.id chunks
      assistant rfl
      (by
        intro m hm
        rcases List.mem_append.mp hm with h | h
        · exact hIdS m h
        · simp only [List.mem_singleton] at h
          rw [h]
          exact hIdU)]
  unfold handleCancelGeneration
  simp only [List.map]
  rw [if_neg (by simp)]
  have hst := chunkMsg_fold_inv chunks assistant
  have hfilter : ((s.messages ++ [user]) ++ [chunks.foldl chunkMsg assistant]).filter
      (fun m => m.status ≠ some MsgStatus.inProgress) = s.messages ++ [user] := by
    rw [List.filter_append, List.filter_append]
    have h1 : s.messages.filter (fun m => m.status ≠ some MsgStatus.inProgress)
        = s.messages :=
      List.filter_eq_self.mpr (fun m hm => by simpa using hS m hm)
    have h2 : [user].filter (fun m => m.status ≠ some MsgStatus.inProgress) = [user] :=
      List.filter_eq_self.mpr (fun m hm => by
        simp only [List.mem_singleton] at hm
        rw [hm]
        simpa using hU)
    have h3 : [chunks.foldl chunkMsg assistant].filter
        (fun m => m.status ≠ some MsgStatus.inProgress) = [] := by
      have : (chunks.foldl chunkMsg assistant).status = some MsgStatus.inProgress := by
        rw [hst.1, hA]
      simp [List.filter, this]
    rw [h1, h2, h3, List.append_nil]
  rw [hfilter]

theorem C7_cancel_witness :
    handleCancelGeneration
      (([⟨some "Hel", none⟩, ⟨some "lo", none⟩] : List Chunk).foldl
        (fun acc c => streamToSession acc "s9" "a9" c)
        (updateSessionMessages
          [⟨"s9", "chat", [⟨"old", Role.assistant, "prev", MsgType.text, none, "",
              some MsgStatus.complete, none, none⟩], 7⟩]
          "s9"
          ([⟨"old", Role.assistant, "prev", MsgType.text, none, "",
              some MsgStatus.complete, none, none⟩] ++
            [⟨"u9", Role.user, "ask", MsgType.text, none, "", none, none, none⟩,
             ⟨"a9", Role.assistant, "", MsgType.text, none, "",
              some MsgStatus.inProgress, none, none⟩])))
      "s9"
    = [{ (⟨"s9", "chat", [⟨"old", Role.assistant, "prev", MsgType.text, none, "",
          some MsgStatus.complete, none, none⟩], 7⟩ : Session) with
        messages := [⟨"old", Role.assistant, "prev", MsgType.text, none, "",
            some MsgStatus.complete, none, none⟩] ++
          [⟨"u9", Role.user, "ask", MsgType.text, none, "", none, none, none⟩] }] :=
  C7_cancel
    ⟨"s9", "chat", [⟨"old", Role.assistant, "prev", MsgType.text, none, "",
        some MsgStatus.complete, none, none⟩], 7⟩
    ⟨"u9", Role.user, "ask", MsgType.text, none, "", none, none, none⟩
    ⟨"a9", Role.assistant, "", MsgType.text, none, "", some MsgStatus.inProgress, none, none⟩
    [⟨some "Hel", none⟩, ⟨some "lo", none⟩]
    (by decide) (by decide) (by decide) (by decide) (by decide)

/-- C8: on a quota-exceeded write failure with a non-empty session list
(distinct ids and creation times), exactly the session with the oldest
`createdAt` is removed — the resulting list is a permutation of the original
minus that session, each member unchanged; when the evicted session was not
the active one the list is exactly the filtered original and the active id is
untouched; when it was, the remaining session with the newest `createdAt`
becomes active. -/
theorem C8_quota (ss : List Session) (active : Option String)
    (hne : ss ≠ [])
    (hid : (ss.map Session.id).Nodup)
    (hct : (ss.map Session.createdAt).Nodup) :
    ∃ oldest ∈ ss,
      (∀ t ∈ ss, t ≠ oldest → oldest.createdAt < t.createdAt)
      ∧ (handleQuotaExceeded ss active).1.Perm (ss.filter fun t => t.id ≠ oldest.id)
      ∧ (∀ t ∈ ss, t ≠ oldest → t ∈ (handleQuotaExceeded ss active).1)
      ∧ (active ≠ some oldest.id →
          handleQuotaExceeded ss active = (ss.filter fun t => t.id ≠ oldest.id, active))
      ∧ (active = some oldest.id → (ss.filter fun t => t.id ≠ oldest.id) ≠ [] →
          ∃ newest ∈ (handleQuotaExceeded ss active).1,
            (∀ t ∈ (handleQuotaExceeded ss active).1, t ≠ newest →
              t.createdAt < newest.createdAt)
            ∧ (handleQuotaExceeded ss active).2 = some newest.id) := by
  cases hsort : List.insertionSort ascCreated ss with
  | nil =>
    exfalso
    have hperm : ([] : List Session).Perm ss := hsort ▸ List.perm_insertionSort ascCreated ss
    exact hne (hperm.symm.eq_nil)
  | cons oldest rest =>
    have hperm : (oldest :: rest).Perm ss := hsort ▸ List.perm_insertionSort ascCreated ss
    have hmem : oldest ∈ ss := hperm.mem_iff.mp (by simp)
    have hsorted : List.Sorted ascCreated (oldest :: rest) := by
      rw [← hsort]
      exact List.sorted_insertionSort ascCreated ss
    have hmin : ∀ t ∈ ss, t ≠ oldest → oldest.createdAt < t.createdAt := by
      intro t ht hne'
      have htmem : t ∈ oldest :: rest := hperm.mem_iff.mpr ht
      have hle : oldest.createdAt ≤ t.createdAt := by
        rcases List.mem_cons.mp htmem with h | h
        · rw [h]
        · exact List.rel_of_sorted_cons hsorted t h
      have hnee : oldest.createdAt ≠ t.createdAt := by
        intro heq
        exact hne' (List.inj_on_of_nodup_map hct ht hmem (heq.symm))
      omega
    have hdef : handleQuotaExceeded ss active =
        (if active = some oldest.id then
          (List.insertionSort descCreated (ss.filter fun t => t.id ≠ oldest.id),
           (List.insertionSort descCreated
             (ss.filter fun t => t.id ≠ oldest.id)).head?.map Session.id)
         else (ss.filter fun t => t.id ≠ oldest.id, active)) := by
      unfold handleQuotaExceeded
      rw [hsort]
    have hpermfilter : (handleQuotaExceeded ss active).1.Perm
        (ss.filter fun t => t.id ≠ oldest.id) := by
      rw [hdef]
      by_cases hact : active = some oldest.id
      · rw [if_pos hact]
        exact List.perm_insertionSort descCreated _
      · rw [if_neg hact]
    refine ⟨oldest, hmem, hmin, hpermfilter, ?_, ?_, ?_⟩
    · intro t ht hne'
      apply hpermfilter.mem_iff.mpr
      rw [List.mem_filter]
      refine ⟨ht, ?_⟩
      have : t.id ≠ oldest.id := by
        intro heq
        exact hne' (List.inj_on_of_nodup_map hid ht hmem heq)
      simpa using this
    · intro hact
      rw [hdef, if_neg hact]
    · intro hact hpne
      rw [hdef, if_pos hact]
      cases hsd : List.insertionSort descCreated (ss.filter fun t => t.id ≠ oldest.id) with
      | nil =>
        exfalso
        have hperm2 : ([] : List Session).Perm (ss.filter fun t => t.id ≠ oldest.id) :=
          hsd ▸ List.perm_insertionSort descCreated _
        exact hpne (hperm2.symm.eq_nil)
      | cons newest rest2 =>
        have hperm2 : (newest :: rest2).Perm (ss.filter fun t => t.id ≠ oldest.id) :=
          hsd ▸ List.perm_insertionSort descCreated _
        have hsorted2 : List.Sorted descCreated (newest :: rest2) := by
          rw [← hsd]
          exact List.sorted_insertionSort descCreated _
        refine ⟨newest, by simp, ?_, by simp⟩
        intro t ht hne'
        have htf : t ∈ ss.filter fun u => u.id ≠ oldest.id := by
          apply hperm2.mem_iff.mp
          simpa using ht
        have hnf : newest ∈ ss.filter fun u => u.id ≠ oldest.id := by
          apply hperm2.mem_iff.mp
          simp
        have hts : t ∈ ss := List.mem_of_mem_filter htf
        have hns : newest ∈ ss := List.mem_of_mem_filter hnf
        have hle : t.createdAt ≤ newest.createdAt := by
          rcases List.mem_cons.mp (show t ∈ newest :: rest2 by simpa using ht) with h | h
          · rw [h]
          · exact List.rel_of_sorted_cons hsorted2 t h
        have hnee : t.createdAt ≠ newest.createdAt := by
          intro heq
          exact hne' (List.inj_on_of_nodup_map hct hts hns heq)
        omega

theorem C8_quota_witness :
    ∃ oldest ∈ [(⟨"A", "a", [], 1⟩ : Session), ⟨"B", "b", [], 2⟩, ⟨"C", "c", [], 3⟩],
      (∀ t ∈ [(⟨"A", "a", [], 1⟩ : Session), ⟨"B", "b", [], 2⟩, ⟨"C", "c", [], 3⟩],
        t ≠ oldest → oldest.createdAt < t.createdAt)
      ∧ (handleQuotaExceeded
          [⟨"A", "a", [], 1⟩, ⟨"B", "b", [], 2⟩, ⟨"C", "c", [], 3⟩] (some "A")).1.Perm
          (([(⟨"A", "a", [], 1⟩ : Session), ⟨"B", "b", [], 2⟩, ⟨"C", "c", [], 3⟩]).filter
            fun t => t.id ≠ oldest.id)
      ∧ (∀ t ∈ [(⟨"A", "a", [], 1⟩ : Session), ⟨"B", "b", [], 2⟩, ⟨"C", "c", [], 3⟩],
          t ≠ oldest → t ∈ (handleQuotaExceeded
            [⟨"A", "a", [], 1⟩, ⟨"B", "b", [], 2⟩, ⟨"C", "c", [], 3⟩] (some "A")).1)
      ∧ (some "A" ≠ some oldest.id →
          handleQuotaExceeded
            [⟨"A", "a", [], 1⟩, ⟨"B", "b", [], 2⟩, ⟨"C", "c", [], 3⟩] (some "A")
          = (([(⟨"A", "a", [], 1⟩ : Session), ⟨"B", "b", [], 2⟩, ⟨"C", "c", [], 3⟩]).filter
              fun t => t.id ≠ oldest.id, some "A"))
      ∧ (some "A" = some oldest.id →
          (([(⟨"A", "a", [], 1⟩ : Session), ⟨"B", "b", [], 2⟩, ⟨"C", "c", [], 3⟩]).filter
            fun t => t.id ≠ oldest.id) ≠ [] →
          ∃ newest ∈ (handleQuotaExceeded
              [⟨"A", "a", [], 1⟩, ⟨"B", "b", [], 2⟩, ⟨"C", "c", [], 3⟩] (some "A")).1,
            (∀ t ∈ (handleQuotaExceeded
                [⟨"A", "a", [], 1⟩, ⟨"B", "b", [], 2⟩, ⟨"C", "c", [], 3⟩] (some "A")).1,
              t ≠ newest → t.createdAt < newest.createdAt)
            ∧ (handleQuotaExceeded
                [⟨"A", "a", [], 1⟩, ⟨"B", "b", [], 2⟩, ⟨"C", "c", [], 3⟩] (some "A")).2
              = some newest.id) :=
  C8_quota [⟨"A", "a", [], 1⟩, ⟨"B", "b", [], 2⟩, ⟨"C", "c", [], 3⟩] (some "A")
    (by decide) (by decide) (by decide)
